import Mathlib

/-!
Shallow embedding of the ALS collaborative-filtering core of
`libreco/algorithms/ALS.py` (classes `ALS_rating`, `ALS_ranking`,
`ALS_ranking_9090`), over the rationals.

Factor matrices are functions `Fin n → Fin k → ℚ` (one latent row per
entity); the dataset views `train_user` / `train_item` are association
lists mirroring the Python dicts (the `Nodup` fields record that Python
dict keys are distinct).  `np.linalg.solve` is embedded as the exact
Cramer-rule solution `linSolve`, which satisfies `A.mulVec (linSolve A b) = b`
whenever `A.det ≠ 0`.
-/

namespace ALSSpec

/-- A latent vector of dimension `k` (one row of a factor matrix). -/
abbrev Vec (k : ℕ) := Fin k → ℚ

/-- A `k × k` rational matrix (the per-entity normal-equation systems). -/
abbrev Mat (k : ℕ) := Matrix (Fin k) (Fin k) ℚ

/-- Dataset view consumed by `fit`: per-user and per-item neighbor
association lists (items with labels, respectively users with labels),
standing for the Python dicts `dataset.train_user` / `dataset.train_item`,
plus the global mean used as the cold-start default.  The `Nodup` fields
record that dict keys are distinct. -/
structure DS (n m : ℕ) where
  trainUser : Fin n → List (Fin m × ℚ)
  trainItem : Fin m → List (Fin n × ℚ)
  globalMean : ℚ
  user_nodup : ∀ u, ((trainUser u).map Prod.fst).Nodup
  item_nodup : ∀ i, ((trainItem i).map Prod.fst).Nodup

/-- Outer product `v vᵗ` of a latent vector with itself. -/
def outer {k : ℕ} (v : Vec k) : Mat k := Matrix.vecMulVec v v

/-- `Q[I_u].T.dot(Q[I_u])`: the Gram matrix of the neighbor rows of `Q`
selected by the association list `l` (duplicate entries, which Python
dict keys exclude, would be counted repeatedly, exactly as numpy row
selection would). -/
def gramList {m k : ℕ} (Q : Fin m → Vec k) (l : List (Fin m × ℚ)) : Mat k :=
  (l.map (fun p => outer (Q p.1))).sum

/-- `np.sum(labels_expand * Q[I_u], axis=0)`: the label-weighted sum
`Σ_{i ∈ I_u} r_ui · Q[i]` of the neighbor rows. -/
def rhsList {m k : ℕ} (Q : Fin m → Vec k) (l : List (Fin m × ℚ)) : Vec k :=
  (l.map (fun p => p.2 • Q p.1)).sum

/-- `np.linalg.solve(A, b)` embedded as the exact Cramer-rule solution
`det(A)⁻¹ · adj(A) · b`; it satisfies `A x = b` whenever `A.det ≠ 0`. -/
def linSolve {k : ℕ} (A : Mat k) (b : Vec k) : Vec k :=
  (A.det)⁻¹ • A.adjugate.mulVec b

/-- `yy_reg` of `ALS_rating.fit`: the regularized normal-equation matrix
`Q[I_u]ᵗ Q[I_u] + reg · I`. -/
def ridgeMatrix {m k : ℕ} (reg : ℚ) (Q : Fin m → Vec k) (l : List (Fin m × ℚ)) : Mat k :=
  gramList Q l + reg • (1 : Mat k)

/-- One per-entity update of `ALS_rating.fit`:
`np.linalg.solve(yy_reg, r_y)`. -/
def ridgeUpdate {m k : ℕ} (reg : ℚ) (Q : Fin m → Vec k) (l : List (Fin m × ℚ)) : Vec k :=
  linSolve (ridgeMatrix reg Q l) (rhsList Q l)

/-- The user sweep of `ALS_rating.fit`: every user appearing in
`train_user` gets the ridge solution computed from the (fixed) item
matrix `Q`; a user absent from the dict (empty neighbor list) keeps its
previous row. -/
def userSweep {n m k : ℕ} (ds : DS n m) (reg : ℚ) (Q : Fin m → Vec k)
    (P : Fin n → Vec k) : Fin n → Vec k :=
  fun u => if ds.trainUser u = [] then P u else ridgeUpdate reg Q (ds.trainUser u)

/-- The item sweep of `ALS_rating.fit`, symmetric to `userSweep`,
reading the user matrix `P`. -/
def itemSweep {n m k : ℕ} (ds : DS n m) (reg : ℚ) (P : Fin n → Vec k)
    (Q : Fin m → Vec k) : Fin m → Vec k :=
  fun i => if ds.trainItem i = [] then Q i else ridgeUpdate reg P (ds.trainItem i)

/-- One epoch of `ALS_rating.fit`: full user sweep (reading the previous
item matrix), then full item sweep reading the just-updated user matrix. -/
def ratingEpoch {n m k : ℕ} (ds : DS n m) (reg : ℚ)
    (PQ : (Fin n → Vec k) × (Fin m → Vec k)) : (Fin n → Vec k) × (Fin m → Vec k) :=
  (userSweep ds reg PQ.2 PQ.1, itemSweep ds reg (userSweep ds reg PQ.2 PQ.1) PQ.2)

/-- `ALS_rating.fit` run for `epochs` epochs from the initial factor pair
(`truncated_normal` initialization is an external collaborator, so the
initial matrices are parameters). -/
def ratingFit {n m k : ℕ} (ds : DS n m) (reg : ℚ) (epochs : ℕ)
    (PQ : (Fin n → Vec k) × (Fin m → Vec k)) : (Fin n → Vec k) × (Fin m → Vec k) :=
  (ratingEpoch ds reg)^[epochs] PQ

/-- `A x = b` holds for the `linSolve` solution whenever `A.det ≠ 0`. -/
theorem linSolve_mulVec {k : ℕ} (A : Mat k) (b : Vec k) (h : A.det ≠ 0) :
    A.mulVec (linSolve A b) = b := by
  unfold linSolve
  rw [Matrix.mulVec_smul, Matrix.mulVec_mulVec, Matrix.mul_adjugate,
    Matrix.smul_mulVec_assoc, Matrix.one_mulVec, smul_smul, inv_mul_cancel₀ h, one_smul]

open Matrix

/-- `(outer v).mulVec x = (v ⬝ᵥ x) • v`. -/
theorem outer_mulVec {k : ℕ} (v x : Vec k) :
    (outer v).mulVec x = (v ⬝ᵥ x) • v := by
  funext i
  simp [outer, Matrix.mulVec, Matrix.vecMulVec, Matrix.dotProduct, Finset.mul_sum,
    mul_assoc, mul_comm, mul_left_comm]

/-- The quadratic form of an outer product is a square. -/
theorem quad_outer {k : ℕ} (v x : Vec k) :
    x ⬝ᵥ (outer v).mulVec x = (v ⬝ᵥ x) * (v ⬝ᵥ x) := by
  rw [outer_mulVec, dotProduct_smul, smul_eq_mul, Matrix.dotProduct_comm x v]

/-- `x ⬝ᵥ x` is a sum of squares, hence nonnegative. -/
theorem dotProduct_self_nonneg {k : ℕ} (x : Vec k) : 0 ≤ x ⬝ᵥ x :=
  Finset.sum_nonneg fun i _ => mul_self_nonneg (x i)

/-- `x ⬝ᵥ x` is positive for nonzero `x`. -/
theorem dotProduct_self_pos {k : ℕ} (x : Vec k) (hx : x ≠ 0) : 0 < x ⬝ᵥ x :=
  lt_of_le_of_ne (dotProduct_self_nonneg x)
    (fun h => hx ((Matrix.dotProduct_self_eq_zero).1 h.symm))

/-- The quadratic form of a sum of two matrices splits. -/
theorem quad_add {k : ℕ} (A B : Mat k) (x : Vec k) :
    x ⬝ᵥ (A + B).mulVec x = x ⬝ᵥ A.mulVec x + x ⬝ᵥ B.mulVec x := by
  rw [Matrix.add_mulVec, dotProduct_add]

/-- The quadratic form of `reg • I` is `reg * (x ⬝ᵥ x)`. -/
theorem quad_smul_one {k : ℕ} (reg : ℚ) (x : Vec k) :
    x ⬝ᵥ ((reg • (1 : Mat k)).mulVec x) = reg * (x ⬝ᵥ x) := by
  rw [Matrix.smul_mulVec_assoc, Matrix.one_mulVec, dotProduct_smul, smul_eq_mul]

/-- The Gram matrix of any selection of rows has nonnegative quadratic form. -/
theorem quad_gramList_nonneg {m k : ℕ} (Q : Fin m → Vec k)
    (l : List (Fin m × ℚ)) (x : Vec k) :
    0 ≤ x ⬝ᵥ (gramList Q l).mulVec x := by
  induction l with
  | nil => simp [gramList]
  | cons p l ih =>
      have : gramList Q (p :: l) = outer (Q p.1) + gramList Q l := by
        simp [gramList]
      rw [this, quad_add, quad_outer]
      exact add_nonneg (mul_self_nonneg _) ih

/-- The explicit-variant normal-equation matrix has positive quadratic
form on every nonzero vector, provided `reg > 0`. -/
theorem ridgeMatrix_quad_pos {m k : ℕ} (reg : ℚ) (hreg : 0 < reg)
    (Q : Fin m → Vec k) (l : List (Fin m × ℚ)) (x : Vec k) (hx : x ≠ 0) :
    0 < x ⬝ᵥ (ridgeMatrix reg Q l).mulVec x := by
  rw [ridgeMatrix, quad_add, quad_smul_one]
  have h1 : 0 ≤ x ⬝ᵥ (gramList Q l).mulVec x := quad_gramList_nonneg Q l x
  have h2 : 0 < reg * (x ⬝ᵥ x) := mul_pos hreg (dotProduct_self_pos x hx)
  linarith

/-- A matrix with everywhere-positive quadratic form has nonzero
determinant (no nontrivial kernel). -/
theorem det_ne_zero_of_quad_pos {k : ℕ} (A : Mat k)
    (h : ∀ x : Vec k, x ≠ 0 → 0 < x ⬝ᵥ A.mulVec x) : A.det ≠ 0 := by
  intro hdet
  obtain ⟨v, hv, hmul⟩ := (Matrix.exists_mulVec_eq_zero_iff).2 hdet
  have := h v hv
  rw [hmul, dotProduct_zero] at this
  exact lt_irrefl 0 this

/-- The Gram matrix of selected rows is symmetric. -/
theorem gramList_transpose {m k : ℕ} (Q : Fin m → Vec k) (l : List (Fin m × ℚ)) :
    (gramList Q l)ᵀ = gramList Q l := by
  induction l with
  | nil => simp [gramList]
  | cons p l ih =>
      have h1 : gramList Q (p :: l) = outer (Q p.1) + gramList Q l := by
        simp [gramList]
      have h2 : (outer (Q p.1))ᵀ = outer (Q p.1) := by
        funext i j
        simp [outer, Matrix.vecMulVec, Matrix.transpose, mul_comm]
      rw [h1, Matrix.transpose_add, h2, ih]

/-- The explicit-variant normal-equation matrix is symmetric. -/
theorem ridgeMatrix_transpose {m k : ℕ} (reg : ℚ) (Q : Fin m → Vec k)
    (l : List (Fin m × ℚ)) : (ridgeMatrix reg Q l)ᵀ = ridgeMatrix reg Q l := by
  rw [ridgeMatrix, Matrix.transpose_add, gramList_transpose, Matrix.transpose_smul,
    Matrix.transpose_one]

/-- The explicit-variant normal-equation matrix has nonzero determinant
whenever `reg > 0`. -/
theorem ridgeMatrix_det_ne_zero {m k : ℕ} (reg : ℚ) (hreg : 0 < reg)
    (Q : Fin m → Vec k) (l : List (Fin m × ℚ)) : (ridgeMatrix reg Q l).det ≠ 0 :=
  det_ne_zero_of_quad_pos _ (fun x hx => ridgeMatrix_quad_pos reg hreg Q l x hx)

/-- C1: In the explicit-rating variant (`ALS_rating.fit`), every epoch is a
full user sweep followed by a full item sweep that reads the just-updated
user matrix; each updated user row `P[u]` solves
`(Q[I_u]ᵗQ[I_u] + reg·I) x = Σ_{i∈I_u} r_ui·Q[i]` built from the previous
epoch's item matrix, and each updated item row solves the symmetric system
built from the just-updated user matrix. -/
theorem C1_rating_epoch_alternating {n m k : ℕ} (ds : DS n m) (reg : ℚ)
    (hreg : 0 < reg) (e : ℕ) (PQ0 : (Fin n → Vec k) × (Fin m → Vec k)) :
    ratingFit ds reg (e + 1) PQ0 =
      (userSweep ds reg (ratingFit ds reg e PQ0).2 (ratingFit ds reg e PQ0).1,
       itemSweep ds reg (ratingFit ds reg (e + 1) PQ0).1 (ratingFit ds reg e PQ0).2) ∧
    (∀ u, ds.trainUser u ≠ [] →
      (ridgeMatrix reg (ratingFit ds reg e PQ0).2 (ds.trainUser u)).mulVec
          ((ratingFit ds reg (e + 1) PQ0).1 u)
        = rhsList (ratingFit ds reg e PQ0).2 (ds.trainUser u)) ∧
    (∀ i, ds.trainItem i ≠ [] →
      (ridgeMatrix reg (ratingFit ds reg (e + 1) PQ0).1 (ds.trainItem i)).mulVec
          ((ratingFit ds reg (e + 1) PQ0).2 i)
        = rhsList (ratingFit ds reg (e + 1) PQ0).1 (ds.trainItem i)) := by
  have hstep : ratingFit ds reg (e + 1) PQ0 = ratingEpoch ds reg (ratingFit ds reg e PQ0) :=
    Function.iterate_succ_apply' (ratingEpoch ds reg) e PQ0
  refine ⟨?_, ?_, ?_⟩
  · rw [hstep]
    rfl
  · intro u hu
    have h1 : (ratingFit ds reg (e + 1) PQ0).1 u
        = ridgeUpdate reg (ratingFit ds reg e PQ0).2 (ds.trainUser u) := by
      rw [hstep]
      show userSweep ds reg (ratingFit ds reg e PQ0).2 (ratingFit ds reg e PQ0).1 u = _
      rw [userSweep, if_neg hu]
    rw [h1, ridgeUpdate]
    exact linSolve_mulVec _ _ (ridgeMatrix_det_ne_zero reg hreg _ _)
  · intro i hi
    have h1 : (ratingFit ds reg (e + 1) PQ0).2 i
        = ridgeUpdate reg (ratingFit ds reg (e + 1) PQ0).1 (ds.trainItem i) := by
      rw [hstep]
      show (if ds.trainItem i = [] then (ratingFit ds reg e PQ0).2 i
          else ridgeUpdate reg (userSweep ds reg (ratingFit ds reg e PQ0).2
            (ratingFit ds reg e PQ0).1) (ds.trainItem i)) = _
      rw [if_neg hi]
      rfl
    rw [h1, ridgeUpdate]
    exact linSolve_mulVec _ _ (ridgeMatrix_det_ne_zero reg hreg _ _)

/-! ## Implicit / weighted variant (`ALS_ranking_9090.fit`) -/

/-- The diagonal of the confidence matrix
`Cu = csr_matrix((labels * 10.0, (Cu_indices, Cu_indices)))`: entry `i`
holds `10 · label` summed over the association-list entries with key `i`
(csr construction sums duplicate coordinates; dict keys make the list
nodup, so in practice there is at most one such entry). -/
def confDiag {m : ℕ} (l : List (Fin m × ℚ)) : Fin m → ℚ :=
  fun i => ((l.filter (fun p => p.1 == i)).map (fun p => 10 * p.2)).sum

/-- The preference indicator column
`pu = csr_matrix((ones, (pu_indices, 0)))`: entry `i` counts the
association-list entries with key `i` (a 0/1 indicator when keys are
nodup). -/
def indVec {m : ℕ} (l : List (Fin m × ℚ)) : Fin m → ℚ :=
  fun i => ((l.filter (fun p => p.1 == i)).map (fun _ => (1 : ℚ))).sum

/-- `YtY = Y.T.dot(Y)`: the full Gram matrix over all rows of `Y`,
computed once per epoch before a sweep. -/
def fullGram {m k : ℕ} (Y : Fin m → Vec k) : Mat k := ∑ i, outer (Y i)

/-- `np.dot(Y.T, Cu.dot(Y))`: the Gram matrix of `Y` weighted by the
diagonal `c` (`Yᵗ · diag(c) · Y`). -/
def weightedGram {m k : ℕ} (Y : Fin m → Vec k) (c : Fin m → ℚ) : Mat k :=
  ∑ i, c i • outer (Y i)

/-- `ycy_reg = YtY + np.dot(Y.T, Cu.dot(Y)) + reg * np.eye(k)`: the
confidence-weighted normal-equation matrix; `G` is the precomputed full
Gram matrix of the opposite side. -/
def wridgeMatrix {m k : ℕ} (reg : ℚ) (G : Mat k) (Y : Fin m → Vec k)
    (l : List (Fin m × ℚ)) : Mat k :=
  G + weightedGram Y (confDiag l) + reg • (1 : Mat k)

/-- `ycp = np.dot(Y.T, Cu.dot(pu).toarray().flatten())`: the
confidence-weighted indicator right-hand side `Yᵗ (Cu · pu)`. -/
def confRhs {m k : ℕ} (Y : Fin m → Vec k) (l : List (Fin m × ℚ)) : Vec k :=
  ∑ i, (confDiag l i * indVec l i) • Y i

/-- The user sweep of `ALS_ranking_9090.fit`: `G` is the `YtY` Gram matrix
precomputed before the sweep; every user appearing in `train_user` gets
`np.linalg.solve(ycy_reg, ycp)`. -/
def implicitUserSweep {n m k : ℕ} (ds : DS n m) (reg : ℚ) (G : Mat k)
    (Y : Fin m → Vec k) (X : Fin n → Vec k) : Fin n → Vec k :=
  fun u => if ds.trainUser u = [] then X u
    else linSolve (wridgeMatrix reg G Y (ds.trainUser u)) (confRhs Y (ds.trainUser u))

/-- The item sweep of `ALS_ranking_9090.fit`, symmetric to
`implicitUserSweep`, with `G` the `XtX` Gram matrix of the just-updated
user matrix. -/
def implicitItemSweep {n m k : ℕ} (ds : DS n m) (reg : ℚ) (G : Mat k)
    (X : Fin n → Vec k) (Y : Fin m → Vec k) : Fin m → Vec k :=
  fun i => if ds.trainItem i = [] then Y i
    else linSolve (wridgeMatrix reg G X (ds.trainItem i)) (confRhs X (ds.trainItem i))

/-- One epoch of `ALS_ranking_9090.fit`: `YtY` is computed once from the
epoch-start item matrix, then the full user sweep runs; `XtX` is computed
once from the just-updated user matrix, then the full item sweep runs. -/
def implicitEpoch {n m k : ℕ} (ds : DS n m) (reg : ℚ)
    (XY : (Fin n → Vec k) × (Fin m → Vec k)) : (Fin n → Vec k) × (Fin m → Vec k) :=
  (implicitUserSweep ds reg (fullGram XY.2) XY.2 XY.1,
   implicitItemSweep ds reg (fullGram (implicitUserSweep ds reg (fullGram XY.2) XY.2 XY.1))
     (implicitUserSweep ds reg (fullGram XY.2) XY.2 XY.1) XY.2)

/-- `ALS_ranking_9090.fit` run for `epochs` epochs from the initial
factor pair. -/
def implicitFit {n m k : ℕ} (ds : DS n m) (reg : ℚ) (epochs : ℕ)
    (XY : (Fin n → Vec k) × (Fin m → Vec k)) : (Fin n → Vec k) × (Fin m → Vec k) :=
  (implicitEpoch ds reg)^[epochs] XY

/-! ### Regrouping lemmas for the implicit variant -/

theorem confDiag_cons {m : ℕ} (p : Fin m × ℚ) (l : List (Fin m × ℚ)) (i : Fin m) :
    confDiag (p :: l) i = (if p.1 = i then 10 * p.2 else 0) + confDiag l i := by
  by_cases h : p.1 = i <;> simp [confDiag, h]

theorem indVec_cons {m : ℕ} (p : Fin m × ℚ) (l : List (Fin m × ℚ)) (i : Fin m) :
    indVec (p :: l) i = (if p.1 = i then 1 else 0) + indVec l i := by
  by_cases h : p.1 = i <;> simp [indVec, h]

/-- Regrouping a diagonal built from an association list against any
family: `∑_i confDiag(l)_i • M_i = Σ_{p ∈ l} (10·label_p) • M_{key_p}`. -/
theorem confDiag_smul_sum {m : ℕ} {γ : Type} [AddCommMonoid γ] [Module ℚ γ]
    (l : List (Fin m × ℚ)) (M : Fin m → γ) :
    ∑ i, confDiag l i • M i = (l.map (fun p => (10 * p.2) • M p.1)).sum := by
  induction l with
  | nil => simp [confDiag]
  | cons p l ih =>
      simp only [List.map_cons, List.sum_cons, ← ih]
      calc ∑ i, confDiag (p :: l) i • M i
          = ∑ i, ((if p.1 = i then (10 * p.2) • M i else 0) + confDiag l i • M i) := by
            refine Finset.sum_congr rfl fun i _ => ?_
            rw [confDiag_cons, add_smul]
            by_cases h : p.1 = i <;> simp [h]
        _ = (10 * p.2) • M p.1 + ∑ i, confDiag l i • M i := by
            rw [Finset.sum_add_distrib, Finset.sum_ite_eq]
            simp

/-- A key absent from the association list has zero confidence. -/
theorem confDiag_eq_zero_of_not_mem {m : ℕ} (l : List (Fin m × ℚ)) (i : Fin m)
    (h : i ∉ l.map Prod.fst) : confDiag l i = 0 := by
  induction l with
  | nil => simp [confDiag]
  | cons q l ihq =>
      rw [List.map_cons, List.mem_cons, not_or] at h
      rw [confDiag_cons, if_neg (fun hh => h.1 hh.symm), zero_add]
      exact ihq h.2

/-- A key absent from the association list has zero indicator. -/
theorem indVec_eq_zero_of_not_mem {m : ℕ} (l : List (Fin m × ℚ)) (i : Fin m)
    (h : i ∉ l.map Prod.fst) : indVec l i = 0 := by
  induction l with
  | nil => simp [indVec]
  | cons q l ihq =>
      rw [List.map_cons, List.mem_cons, not_or] at h
      rw [indVec_cons, if_neg (fun hh => h.1 hh.symm), zero_add]
      exact ihq h.2

/-- On a nodup association list the indicator is 0/1, so multiplying the
confidence diagonal by it changes nothing. -/
theorem confDiag_mul_indVec {m : ℕ} (l : List (Fin m × ℚ))
    (hnd : (l.map Prod.fst).Nodup) (i : Fin m) :
    confDiag l i * indVec l i = confDiag l i := by
  induction l with
  | nil => simp [confDiag, indVec]
  | cons p l ih =>
      rw [List.map_cons, List.nodup_cons] at hnd
      obtain ⟨hp, hnd'⟩ := hnd
      rw [confDiag_cons, indVec_cons]
      by_cases h : p.1 = i
      · have hz : confDiag l i = 0 := confDiag_eq_zero_of_not_mem l i (h ▸ hp)
        have hz2 : indVec l i = 0 := indVec_eq_zero_of_not_mem l i (h ▸ hp)
        simp [h, hz, hz2]
      · simp only [if_neg h, zero_add]
        exact ih hnd'

/-- On a nodup neighbor list the right-hand side `Yᵗ(Cu·pu)` is the
confidence-weighted sum of the neighbor rows. -/
theorem confRhs_eq {m k : ℕ} (Y : Fin m → Vec k) (l : List (Fin m × ℚ))
    (hnd : (l.map Prod.fst).Nodup) :
    confRhs Y l = (l.map (fun p => (10 * p.2) • Y p.1)).sum := by
  rw [confRhs, ← confDiag_smul_sum l Y]
  refine Finset.sum_congr rfl fun i _ => ?_
  rw [confDiag_mul_indVec l hnd i]

/-- `Yᵗ·Cu·Y` is the confidence-weighted sum of neighbor outer products. -/
theorem weightedGram_eq {m k : ℕ} (Y : Fin m → Vec k) (l : List (Fin m × ℚ)) :
    weightedGram Y (confDiag l) = (l.map (fun p => (10 * p.2) • outer (Y p.1))).sum :=
  confDiag_smul_sum l (fun i => outer (Y i))

/-! ### Positive definiteness of the implicit-variant systems -/

/-- The quadratic form of a finite sum of matrices splits. -/
theorem quad_finsum {k : ℕ} {ι : Type} (s : Finset ι) (A : ι → Mat k) (x : Vec k) :
    x ⬝ᵥ (∑ i ∈ s, A i).mulVec x = ∑ i ∈ s, x ⬝ᵥ (A i).mulVec x := by
  induction s using Finset.cons_induction with
  | empty => simp [Matrix.zero_mulVec]
  | cons a s ha ih => rw [Finset.sum_cons, Finset.sum_cons, quad_add, ih]

/-- The full Gram matrix `YᵗY` has nonnegative quadratic form. -/
theorem quad_fullGram_nonneg {m k : ℕ} (Y : Fin m → Vec k) (x : Vec k) :
    0 ≤ x ⬝ᵥ (fullGram Y).mulVec x := by
  rw [fullGram, quad_finsum]
  refine Finset.sum_nonneg fun i _ => ?_
  rw [quad_outer]
  exact mul_self_nonneg _

/-- A nonnegatively weighted Gram matrix has nonnegative quadratic form. -/
theorem quad_weightedGram_nonneg {m k : ℕ} (Y : Fin m → Vec k) (c : Fin m → ℚ)
    (hc : ∀ i, 0 ≤ c i) (x : Vec k) :
    0 ≤ x ⬝ᵥ (weightedGram Y c).mulVec x := by
  rw [weightedGram, quad_finsum]
  refine Finset.sum_nonneg fun i _ => ?_
  rw [Matrix.smul_mulVec_assoc, dotProduct_smul, smul_eq_mul, quad_outer]
  exact mul_nonneg (hc i) (mul_self_nonneg _)

/-- Nonnegative labels give nonnegative confidences. -/
theorem confDiag_nonneg {m : ℕ} (l : List (Fin m × ℚ))
    (hlab : ∀ p ∈ l, 0 ≤ p.2) (i : Fin m) : 0 ≤ confDiag l i := by
  refine List.sum_nonneg fun x hx => ?_
  obtain ⟨p, hp, rfl⟩ := List.mem_map.1 hx
  have : p ∈ l := (List.mem_filter.1 hp).1
  have := hlab p this
  linarith

/-- The implicit-variant normal-equation matrix has positive quadratic
form for `reg > 0`, nonnegative labels, and a baseline term `G` with
nonnegative quadratic form. -/
theorem wridgeMatrix_quad_pos {m k : ℕ} (reg : ℚ) (hreg : 0 < reg)
    (G : Mat k) (hG : ∀ x : Vec k, 0 ≤ x ⬝ᵥ G.mulVec x)
    (Y : Fin m → Vec k) (l : List (Fin m × ℚ)) (hlab : ∀ p ∈ l, 0 ≤ p.2)
    (x : Vec k) (hx : x ≠ 0) :
    0 < x ⬝ᵥ (wridgeMatrix reg G Y l).mulVec x := by
  rw [wridgeMatrix, quad_add, quad_add, quad_smul_one]
  have h1 := hG x
  have h2 := quad_weightedGram_nonneg Y (confDiag l) (confDiag_nonneg l hlab) x
  have h3 : 0 < reg * (x ⬝ᵥ x) := mul_pos hreg (dotProduct_self_pos x hx)
  linarith

/-- The implicit-variant normal-equation matrix has nonzero determinant. -/
theorem wridgeMatrix_det_ne_zero {m k : ℕ} (reg : ℚ) (hreg : 0 < reg)
    (G : Mat k) (hG : ∀ x : Vec k, 0 ≤ x ⬝ᵥ G.mulVec x)
    (Y : Fin m → Vec k) (l : List (Fin m × ℚ)) (hlab : ∀ p ∈ l, 0 ≤ p.2) :
    (wridgeMatrix reg G Y l).det ≠ 0 :=
  det_ne_zero_of_quad_pos _ (fun x hx => wridgeMatrix_quad_pos reg hreg G hG Y l hlab x hx)

/-- Outer products of a vector with itself are symmetric. -/
theorem outer_transpose {k : ℕ} (v : Vec k) : (outer v)ᵀ = outer v := by
  funext i j
  simp [outer, Matrix.vecMulVec, Matrix.transpose, mul_comm]

/-- The full Gram matrix is symmetric. -/
theorem fullGram_transpose {m k : ℕ} (Y : Fin m → Vec k) :
    (fullGram Y)ᵀ = fullGram Y := by
  rw [fullGram, Matrix.transpose_sum]
  exact Finset.sum_congr rfl fun i _ => outer_transpose (Y i)

/-- The weighted Gram matrix is symmetric. -/
theorem weightedGram_transpose {m k : ℕ} (Y : Fin m → Vec k) (c : Fin m → ℚ) :
    (weightedGram Y c)ᵀ = weightedGram Y c := by
  rw [weightedGram, Matrix.transpose_sum]
  refine Finset.sum_congr rfl fun i _ => ?_
  rw [Matrix.transpose_smul, outer_transpose]

/-- The implicit-variant normal-equation matrix is symmetric whenever its
baseline term is. -/
theorem wridgeMatrix_transpose {m k : ℕ} (reg : ℚ) (G : Mat k) (hG : Gᵀ = G)
    (Y : Fin m → Vec k) (l : List (Fin m × ℚ)) :
    (wridgeMatrix reg G Y l)ᵀ = wridgeMatrix reg G Y l := by
  rw [wridgeMatrix, Matrix.transpose_add, Matrix.transpose_add, hG,
    weightedGram_transpose, Matrix.transpose_smul, Matrix.transpose_one]

/-- C2: In the implicit/weighted variant (`ALS_ranking_9090.fit`), each
epoch precomputes `YtY = QᵗQ` over all items from the epoch-start item
matrix before the user sweep; for every user `u` with neighbors `I_u` the
confidence is `c_ui = 10·l_ui`, the system matrix is
`YtY + Σ_{i∈I_u} c_ui·Q[i]Q[i]ᵗ + reg·I`, the right-hand side is
`Σ_{i∈I_u} c_ui·Q[i]`, and the updated row `X[u]` solves that system; the
item sweep mirrors this with `XtX = PᵗP` computed from the just-updated
user matrix. -/
theorem C2_implicit_epoch_systems {n m k : ℕ} (ds : DS n m) (reg : ℚ)
    (hreg : 0 < reg)
    (hlabU : ∀ u, ∀ p ∈ ds.trainUser u, 0 ≤ p.2)
    (hlabI : ∀ i, ∀ p ∈ ds.trainItem i, 0 ≤ p.2)
    (e : ℕ) (XY0 : (Fin n → Vec k) × (Fin m → Vec k)) :
    implicitFit ds reg (e + 1) XY0 =
      (implicitUserSweep ds reg (fullGram (implicitFit ds reg e XY0).2)
        (implicitFit ds reg e XY0).2 (implicitFit ds reg e XY0).1,
       implicitItemSweep ds reg (fullGram (implicitFit ds reg (e + 1) XY0).1)
        (implicitFit ds reg (e + 1) XY0).1 (implicitFit ds reg e XY0).2) ∧
    (∀ u, ds.trainUser u ≠ [] →
      wridgeMatrix reg (fullGram (implicitFit ds reg e XY0).2)
          (implicitFit ds reg e XY0).2 (ds.trainUser u)
        = fullGram (implicitFit ds reg e XY0).2
          + ((ds.trainUser u).map
              (fun p => (10 * p.2) • outer ((implicitFit ds reg e XY0).2 p.1))).sum
          + reg • (1 : Mat k) ∧
      confRhs (implicitFit ds reg e XY0).2 (ds.trainUser u)
        = ((ds.trainUser u).map
            (fun p => (10 * p.2) • (implicitFit ds reg e XY0).2 p.1)).sum ∧
      (wridgeMatrix reg (fullGram (implicitFit ds reg e XY0).2)
          (implicitFit ds reg e XY0).2 (ds.trainUser u)).mulVec
          ((implicitFit ds reg (e + 1) XY0).1 u)
        = confRhs (implicitFit ds reg e XY0).2 (ds.trainUser u)) ∧
    (∀ i, ds.trainItem i ≠ [] →
      wridgeMatrix reg (fullGram (implicitFit ds reg (e + 1) XY0).1)
          (implicitFit ds reg (e + 1) XY0).1 (ds.trainItem i)
        = fullGram (implicitFit ds reg (e + 1) XY0).1
          + ((ds.trainItem i).map
              (fun p => (10 * p.2) • outer ((implicitFit ds reg (e + 1) XY0).1 p.1))).sum
          + reg • (1 : Mat k) ∧
      confRhs (implicitFit ds reg (e + 1) XY0).1 (ds.trainItem i)
        = ((ds.trainItem i).map
            (fun p => (10 * p.2) • (implicitFit ds reg (e + 1) XY0).1 p.1)).sum ∧
      (wridgeMatrix reg (fullGram (implicitFit ds reg (e + 1) XY0).1)
          (implicitFit ds reg (e + 1) XY0).1 (ds.trainItem i)).mulVec
          ((implicitFit ds reg (e + 1) XY0).2 i)
        = confRhs (implicitFit ds reg (e + 1) XY0).1 (ds.trainItem i)) := by
  have hstep : implicitFit ds reg (e + 1) XY0
      = implicitEpoch ds reg (implicitFit ds reg e XY0) :=
    Function.iterate_succ_apply' (implicitEpoch ds reg) e XY0
  refine ⟨?_, ?_, ?_⟩
  · rw [hstep]
    rfl
  · intro u hu
    refine ⟨?_, confRhs_eq _ _ (ds.user_nodup u), ?_⟩
    · rw [wridgeMatrix, weightedGram_eq]
    · have h1 : (implicitFit ds reg (e + 1) XY0).1 u
          = linSolve (wridgeMatrix reg (fullGram (implicitFit ds reg e XY0).2)
              (implicitFit ds reg e XY0).2 (ds.trainUser u))
            (confRhs (implicitFit ds reg e XY0).2 (ds.trainUser u)) := by
        rw [hstep]
        show (if ds.trainUser u = [] then (implicitFit ds reg e XY0).1 u
            else linSolve (wridgeMatrix reg (fullGram (implicitFit ds reg e XY0).2)
              (implicitFit ds reg e XY0).2 (ds.trainUser u))
              (confRhs (implicitFit ds reg e XY0).2 (ds.trainUser u))) = _
        rw [if_neg hu]
      rw [h1]
      exact linSolve_mulVec _ _ (wridgeMatrix_det_ne_zero reg hreg _
        (quad_fullGram_nonneg _) _ _ (hlabU u))
  · intro i hi
    refine ⟨?_, confRhs_eq _ _ (ds.item_nodup i), ?_⟩
    · rw [wridgeMatrix, weightedGram_eq]
    · have h1 : (implicitFit ds reg (e + 1) XY0).2 i
          = linSolve (wridgeMatrix reg (fullGram (implicitFit ds reg (e + 1) XY0).1)
              (implicitFit ds reg (e + 1) XY0).1 (ds.trainItem i))
            (confRhs (implicitFit ds reg (e + 1) XY0).1 (ds.trainItem i)) := by
        conv_lhs => rw [hstep]
        show (if ds.trainItem i = [] then (implicitFit ds reg e XY0).2 i
            else linSolve (wridgeMatrix reg
              (fullGram (implicitUserSweep ds reg (fullGram (implicitFit ds reg e XY0).2)
                (implicitFit ds reg e XY0).2 (implicitFit ds reg e XY0).1))
              (implicitUserSweep ds reg (fullGram (implicitFit ds reg e XY0).2)
                (implicitFit ds reg e XY0).2 (implicitFit ds reg e XY0).1) (ds.trainItem i))
              (confRhs (implicitUserSweep ds reg (fullGram (implicitFit ds reg e XY0).2)
                (implicitFit ds reg e XY0).2 (implicitFit ds reg e XY0).1) (ds.trainItem i))) = _
        rw [if_neg hi, hstep]
        rfl
      rw [h1]
      exact linSolve_mulVec _ _ (wridgeMatrix_det_ne_zero reg hreg _
        (quad_fullGram_nonneg _) _ _ (hlabI i))

/-- C3: For every entity with at least one neighbor and `reg > 0`, the
normal-equation matrix assembled during a sweep — `Q[I]ᵗQ[I] + reg·I` in
the explicit variant, and `YtY + correction + reg·I` in the implicit
variant (whose labels are nonnegative implicit-strength signals) — is
symmetric, positive definite, hence has nonzero determinant, and the
linear solve returns an exact solution of the system. -/
theorem C3_normal_equation_posdef {m k : ℕ} (reg : ℚ) (hreg : 0 < reg)
    (Q : Fin m → Vec k) (l : List (Fin m × ℚ)) (_hl : l ≠ []) :
    ((ridgeMatrix reg Q l)ᵀ = ridgeMatrix reg Q l ∧
     (∀ x : Vec k, x ≠ 0 → 0 < x ⬝ᵥ (ridgeMatrix reg Q l).mulVec x) ∧
     (ridgeMatrix reg Q l).det ≠ 0 ∧
     (ridgeMatrix reg Q l).mulVec (ridgeUpdate reg Q l) = rhsList Q l) ∧
    ((∀ p ∈ l, 0 ≤ p.2) →
      (wridgeMatrix reg (fullGram Q) Q l)ᵀ = wridgeMatrix reg (fullGram Q) Q l ∧
      (∀ x : Vec k, x ≠ 0 → 0 < x ⬝ᵥ (wridgeMatrix reg (fullGram Q) Q l).mulVec x) ∧
      (wridgeMatrix reg (fullGram Q) Q l).det ≠ 0 ∧
      (wridgeMatrix reg (fullGram Q) Q l).mulVec
          (linSolve (wridgeMatrix reg (fullGram Q) Q l) (confRhs Q l)) = confRhs Q l) := by
  refine ⟨⟨ridgeMatrix_transpose reg Q l,
      fun x hx => ridgeMatrix_quad_pos reg hreg Q l x hx,
      ridgeMatrix_det_ne_zero reg hreg Q l,
      linSolve_mulVec _ _ (ridgeMatrix_det_ne_zero reg hreg Q l)⟩,
    fun hlab => ⟨wridgeMatrix_transpose reg (fullGram Q) (fullGram_transpose Q) Q l,
      fun x hx => wridgeMatrix_quad_pos reg hreg (fullGram Q)
        (quad_fullGram_nonneg Q) Q l hlab x hx,
      wridgeMatrix_det_ne_zero reg hreg (fullGram Q) (quad_fullGram_nonneg Q) Q l hlab,
      linSolve_mulVec _ _ (wridgeMatrix_det_ne_zero reg hreg (fullGram Q)
        (quad_fullGram_nonneg Q) Q l hlab)⟩⟩

/-! ## Predictor (`ALS_rating.predict`, `ALS_ranking.predict`) -/

/-- Scalar `np.clip(x, lo, hi)`. -/
def clip (x lo hi : ℚ) : ℚ := max lo (min x hi)

/-- Python/numpy integer indexing into a length-`n` axis is valid exactly
for `-n ≤ z < n`; outside this range an `IndexError` is raised. -/
abbrev inPyRange (n : ℕ) (z : ℤ) : Prop := -(n : ℤ) ≤ z ∧ z < (n : ℤ)

/-- Python/numpy index resolution: a negative in-range index wraps around
to `n + z`; a nonnegative one is used as is. -/
def wrapFin (n : ℕ) (z : ℤ) (h : inPyRange n z) : Fin n :=
  ⟨(if z < 0 then (n : ℤ) + z else z).toNat, by
    obtain ⟨h1, h2⟩ := h
    split <;> omega⟩

/-- `ALS_rating.predict(u, i)`: the dot product of the two latent rows
clipped to `[1, 5]`; an `IndexError` (either index outside Python range)
is caught and the stored global-mean default returned instead. -/
def predictRating {n m k : ℕ} (P : Fin n → Vec k) (Q : Fin m → Vec k)
    (gm : ℚ) (u i : ℤ) : ℚ :=
  if h : inPyRange n u ∧ inPyRange m i then
    clip ((P (wrapFin n u h.1)) ⬝ᵥ (Q (wrapFin m i h.2))) 1 5
  else gm

/-- C4: For every (user, item) pair where either index is at or beyond the
trained factor-matrix bound (`u ≥ n_users` or `i ≥ n_items`),
`ALS_rating.predict` returns the stored global-mean default; the
`IndexError` is caught inside `predict`, so no exception escapes (the
embedding is a total function). -/
theorem C4_predict_out_of_range_default {n m k : ℕ} (P : Fin n → Vec k)
    (Q : Fin m → Vec k) (gm : ℚ) (u i : ℤ)
    (h : (n : ℤ) ≤ u ∨ (m : ℤ) ≤ i) :
    predictRating P Q gm u i = gm := by
  rw [predictRating, dif_neg]
  rintro ⟨⟨_, h2⟩, ⟨_, h4⟩⟩
  omega

/-- C5: In the rating variant, for every (user, item) pair — including
out-of-range indices — the value returned by `predict` lies in the clip
range `[1, 5]`, provided the global mean lies in that range. -/
theorem C5_predict_in_clip_range {n m k : ℕ} (P : Fin n → Vec k)
    (Q : Fin m → Vec k) (gm : ℚ) (hgm1 : 1 ≤ gm) (hgm5 : gm ≤ 5) (u i : ℤ) :
    1 ≤ predictRating P Q gm u i ∧ predictRating P Q gm u i ≤ 5 := by
  rw [predictRating]
  split
  · constructor
    · exact le_max_left 1 _
    · exact max_le (by norm_num) (min_le_right _ 5)
  · exact ⟨hgm1, hgm5⟩

/-- C10: For in-range negative indices (`-n_users ≤ u < 0`, resp.
`-n_items ≤ i < 0`), `predict` does not take the cold-start fallback: the
score is computed (and clipped) from the wrapped-around factor rows, the
wrapped row index being `n_users + u` (resp. `n_items + i`); the default
branch is reserved for indices at/beyond the bound or below the negative
bound. -/
theorem C10_predict_negative_wraparound {n m k : ℕ} (P : Fin n → Vec k)
    (Q : Fin m → Vec k) (gm : ℚ) (u i : ℤ)
    (hu : inPyRange n u) (hi : inPyRange m i) :
    predictRating P Q gm u i
        = clip ((P (wrapFin n u hu)) ⬝ᵥ (Q (wrapFin m i hi))) 1 5 ∧
    (u < 0 → ((wrapFin n u hu) : ℕ) = ((n : ℤ) + u).toNat) ∧
    (i < 0 → ((wrapFin m i hi) : ℕ) = ((m : ℤ) + i).toNat) ∧
    (0 ≤ u → ((wrapFin n u hu) : ℕ) = u.toNat) ∧
    (0 ≤ i → ((wrapFin m i hi) : ℕ) = i.toNat) := by
  refine ⟨?_, ?_, ?_, ?_, ?_⟩
  · rw [predictRating, dif_pos ⟨hu, hi⟩]
  · intro hneg
    simp [wrapFin, if_pos hneg]
  · intro hneg
    simp [wrapFin, if_pos hneg]
  · intro hpos
    simp [wrapFin, if_neg (not_lt.2 hpos)]
  · intro hpos
    simp [wrapFin, if_neg (not_lt.2 hpos)]

/-! ## Ranker (`recommend_user`) -/

/-- `list(set(range(n_items)) - set(self.dataset.train_user[u]))`: the
un-interacted item ids, in ascending order (CPython sets of small
nonnegative ints iterate in value order). -/
def unlabeledItems {n m : ℕ} (ds : DS n m) (u : Fin n) : List (Fin m) :=
  (List.finRange m).filter (fun j => decide (j ∉ (ds.trainUser u).map Prod.fst))

/-- Stable insertion into a list already sorted by non-increasing score:
the new element goes before the first element whose score is not greater,
so elements with equal scores keep their original relative order. -/
def insertDesc {α : Type} (a : α × ℚ) : List (α × ℚ) → List (α × ℚ)
  | [] => [a]
  | b :: l => if a.2 < b.2 then b :: insertDesc a l else a :: b :: l

/-- Python `rank.sort(key=itemgetter(1), reverse=True)`: the stable sort
by non-increasing score.  A stable sort's output is uniquely determined by
the key preorder, so this stable insertion sort produces exactly the list
Python's stable sort produces. -/
def sortDesc {α : Type} : List (α × ℚ) → List (α × ℚ)
  | [] => []
  | a :: l => insertDesc a (sortDesc l)

/-- The scored candidate list `rank` of `ALS_rating.recommend_user`: when
the guard `np.any(np.array(unlabled_items) > n_items)` fires, items are
scored one by one through `predict`; otherwise all unlabeled items are
scored by the clipped dot product `np.clip(np.dot(pu[u], qi[items].T), 1, 5)`. -/
def rankList {n m k : ℕ} (ds : DS n m) (P : Fin n → Vec k) (Q : Fin m → Vec k)
    (gm : ℚ) (u : Fin n) : List (Fin m × ℚ) :=
  if (unlabeledItems ds u).any (fun j => decide ((m : ℕ) < (j : ℕ))) then
    (unlabeledItems ds u).map (fun j => (j, predictRating P Q gm (u : ℤ) ((j : ℕ) : ℤ)))
  else
    (unlabeledItems ds u).map (fun j => (j, clip ((P u) ⬝ᵥ (Q j)) 1 5))

/-- `ALS_rating.recommend_user(u, n_rec)` in deterministic mode
(`random_rec=False`): sort `rank` by non-increasing score and return the
first `n_rec` entries. -/
def recommendUser {n m k : ℕ} (ds : DS n m) (P : Fin n → Vec k)
    (Q : Fin m → Vec k) (gm : ℚ) (u : Fin n) (nrec : ℕ) : List (Fin m × ℚ) :=
  (sortDesc (rankList ds P Q gm u)).take nrec

/-- The guard `np.any(np.array(unlabled_items) > n_items)` never fires:
every item id is below `n_items`. -/
theorem rankList_guard_false {n m : ℕ} (ds : DS n m) (u : Fin n) :
    (unlabeledItems ds u).any (fun j => decide ((m : ℕ) < (j : ℕ))) = false := by
  rw [List.any_eq_false]
  intro j _
  simp only [decide_eq_true_eq, not_lt]
  exact le_of_lt j.isLt

/-- `rank` always takes the vectorized scoring path. -/
theorem rankList_eq {n m k : ℕ} (ds : DS n m) (P : Fin n → Vec k)
    (Q : Fin m → Vec k) (gm : ℚ) (u : Fin n) :
    rankList ds P Q gm u
      = (unlabeledItems ds u).map (fun j => (j, clip ((P u) ⬝ᵥ (Q j)) 1 5)) := by
  rw [rankList, if_neg]
  rw [rankList_guard_false ds u]
  simp

theorem mem_insertDesc {α : Type} (a x : α × ℚ) (l : List (α × ℚ)) :
    x ∈ insertDesc a l ↔ x = a ∨ x ∈ l := by
  induction l with
  | nil => simp [insertDesc]
  | cons b l ih =>
      rw [insertDesc]
      split
      · rw [List.mem_cons, ih, List.mem_cons]
        tauto
      · rw [List.mem_cons, List.mem_cons]

theorem insertDesc_perm {α : Type} (a : α × ℚ) (l : List (α × ℚ)) :
    (insertDesc a l).Perm (a :: l) := by
  induction l with
  | nil => rfl
  | cons b l ih =>
      rw [insertDesc]
      split
      · exact (List.Perm.cons b ih).trans (List.Perm.swap a b l)
      · rfl

/-- The stable sort is a permutation of its input. -/
theorem sortDesc_perm {α : Type} (l : List (α × ℚ)) : (sortDesc l).Perm l := by
  induction l with
  | nil => rfl
  | cons a l ih => exact (insertDesc_perm a (sortDesc l)).trans (List.Perm.cons a ih)

theorem insertDesc_pairwise {α : Type} (a : α × ℚ) (l : List (α × ℚ))
    (h : l.Pairwise (fun x y => y.2 ≤ x.2)) :
    (insertDesc a l).Pairwise (fun x y => y.2 ≤ x.2) := by
  induction l with
  | nil => simp [insertDesc]
  | cons b l ih =>
      rw [List.pairwise_cons] at h
      obtain ⟨hb, hl⟩ := h
      rw [insertDesc]
      split
      · rename_i hab
        rw [List.pairwise_cons]
        refine ⟨?_, ih hl⟩
        intro x hx
        rcases (mem_insertDesc a x l).1 hx with rfl | hx
        · exact le_of_lt hab
        · exact hb x hx
      · rename_i hab
        rw [List.pairwise_cons]
        refine ⟨?_, List.pairwise_cons.2 ⟨hb, hl⟩⟩
        intro x hx
        rcases List.mem_cons.1 hx with rfl | hx
        · exact not_lt.1 hab
        · exact le_trans (hb x hx) (not_lt.1 hab)

/-- The stable sort output is sorted by non-increasing score. -/
theorem sortDesc_pairwise {α : Type} (l : List (α × ℚ)) :
    (sortDesc l).Pairwise (fun x y => y.2 ≤ x.2) := by
  induction l with
  | nil => exact List.Pairwise.nil
  | cons a l ih => exact insertDesc_pairwise a (sortDesc l) ih

/-- C6: For every trained model, every user present in the training data,
and every count `n_rec`, `ALS_rating.recommend_user` in deterministic mode
returns at most `n_rec` (item, score) pairs, none of which is an item of
the user's training neighbor set, sorted by non-increasing score. -/
theorem C6_recommend_deterministic {n m k : ℕ} (ds : DS n m)
    (P : Fin n → Vec k) (Q : Fin m → Vec k) (gm : ℚ) (u : Fin n)
    (_hu : ds.trainUser u ≠ []) (nrec : ℕ) :
    (recommendUser ds P Q gm u nrec).length ≤ nrec ∧
    (∀ p ∈ recommendUser ds P Q gm u nrec, p.1 ∉ (ds.trainUser u).map Prod.fst) ∧
    (recommendUser ds P Q gm u nrec).Pairwise (fun a b => b.2 ≤ a.2) := by
  refine ⟨?_, ?_, ?_⟩
  · rw [recommendUser, List.length_take]
    exact min_le_left _ _
  · intro p hp
    have h1 : p ∈ sortDesc (rankList ds P Q gm u) :=
      (List.take_sublist nrec _).subset hp
    have h2 : p ∈ rankList ds P Q gm u := (sortDesc_perm _).mem_iff.1 h1
    rw [rankList_eq] at h2
    obtain ⟨j, hj, rfl⟩ := List.mem_map.1 h2
    have h3 := (List.mem_filter.1 (show j ∈ (List.finRange m).filter
      (fun j => decide (j ∉ (ds.trainUser u).map Prod.fst)) from hj)).2
    exact of_decide_eq_true h3
  · exact List.Pairwise.sublist (List.take_sublist nrec _) (sortDesc_pairwise _)

/-- The high-confidence candidate association list of weighted-random
mode: `item_pred_dict = {j: r for j, r in rank if r >= 4}` (the keys of
`rank` are distinct, so the dict is the filtered association list). -/
def randomCandidates {n m k : ℕ} (ds : DS n m) (P : Fin n → Vec k)
    (Q : Fin m → Vec k) (gm : ℚ) (u : Fin n) : List (Fin m × ℚ) :=
  (rankList ds P Q gm u).filter (fun p => decide ((4 : ℚ) ≤ p.2))

/-- The normalized sampling weights
`p = [p / np.sum(pred_list) for p in pred_list]`. -/
def randomProbs {n m k : ℕ} (ds : DS n m) (P : Fin n → Vec k)
    (Q : Fin m → Vec k) (gm : ℚ) (u : Fin n) : List ℚ :=
  (randomCandidates ds P Q gm u).map
    (fun p => p.2 / ((randomCandidates ds P Q gm u).map Prod.snd).sum)

/-- The sampling contract of
`np.random.choice(item_list, n_rec, replace=False, p=p)` (external
library, modelled nondeterministically): a possible output is any list of
`n_rec` distinct elements of `item_list`; when `n_rec` exceeds the
population size, numpy raises and no output exists. -/
def sampleOk {m : ℕ} (items : List (Fin m)) (nrec : ℕ) (out : List (Fin m)) : Prop :=
  out.length = nrec ∧ out.Nodup ∧ ∀ x ∈ out, x ∈ items

/-- C7: In weighted-random mode, `recommend_user` restricts candidates to
scores `≥ 4`, normalizes their scores into a probability distribution
(summing to 1), and samples without replacement; for a user with exactly
two candidates at/above the threshold, every valid sample of size 2
consists of exactly those two items, and no valid sample of size 3 exists
(numpy's `replace=False` sampling raises — the defined
insufficient-candidates failure — instead of wrapping or duplicating). -/
theorem C7_weighted_random_sampling {n m k : ℕ} (ds : DS n m)
    (P : Fin n → Vec k) (Q : Fin m → Vec k) (gm : ℚ) (u : Fin n)
    (a b : Fin m) (sa sb : ℚ)
    (hc : randomCandidates ds P Q gm u = [(a, sa), (b, sb)]) (hab : a ≠ b) :
    (randomProbs ds P Q gm u).sum = 1 ∧
    (∀ out, sampleOk ((randomCandidates ds P Q gm u).map Prod.fst) 2 out →
      a ∈ out ∧ b ∈ out ∧ out.length = 2) ∧
    (∀ out, ¬ sampleOk ((randomCandidates ds P Q gm u).map Prod.fst) 3 out) := by
  have hmem1 : ((a, sa) : Fin m × ℚ) ∈ randomCandidates ds P Q gm u := by
    rw [hc]
    exact List.mem_cons_self _ _
  have hmem2 : ((b, sb) : Fin m × ℚ) ∈ randomCandidates ds P Q gm u := by
    rw [hc]
    exact List.mem_cons_of_mem _ (List.mem_cons_self _ _)
  have h4a : (4 : ℚ) ≤ sa := of_decide_eq_true (List.mem_filter.1
    (show ((a, sa) : Fin m × ℚ) ∈ (rankList ds P Q gm u).filter
      (fun p => decide ((4 : ℚ) ≤ p.2)) from hmem1)).2
  have h4b : (4 : ℚ) ≤ sb := of_decide_eq_true (List.mem_filter.1
    (show ((b, sb) : Fin m × ℚ) ∈ (rankList ds P Q gm u).filter
      (fun p => decide ((4 : ℚ) ≤ p.2)) from hmem2)).2
  have hns : sa + (sb + 0) ≠ 0 := by linarith
  refine ⟨?_, ?_, ?_⟩
  · rw [randomProbs, hc]
    simp only [List.map_cons, List.map_nil, List.sum_cons, List.sum_nil]
    field_simp
  · rintro out ⟨hlen, hnd, hsub⟩
    rw [hc] at hsub
    simp only [List.map_cons, List.map_nil] at hsub
    refine ⟨?_, ?_, hlen⟩
    · by_contra ha
      have hsubb : out ⊆ [b] := by
        intro x hx
        rcases List.mem_cons.1 (hsub x hx) with rfl | hx2
        · exact absurd hx ha
        · exact hx2
      have := (List.subperm_of_subset hnd hsubb).length_le
      rw [hlen] at this
      simp at this
    · by_contra hb
      have hsuba : out ⊆ [a] := by
        intro x hx
        rcases List.mem_cons.1 (hsub x hx) with rfl | hx2
        · exact List.mem_singleton_self x
        · rw [List.mem_singleton] at hx2
          subst hx2
          exact absurd hx hb
      have := (List.subperm_of_subset hnd hsuba).length_le
      rw [hlen] at this
      simp at this
  · rintro out ⟨hlen, hnd, hsub⟩
    rw [hc] at hsub
    simp only [List.map_cons, List.map_nil] at hsub
    have := (List.subperm_of_subset hnd hsub).length_le
    rw [hlen] at this
    simp at this

/-! ## Ranking variant (`ALS_ranking.predict` / `ALS_ranking.recommend_user`) -/

/-- The logistic transform `prob = 1 / (1 + np.exp(-x))` of
`ALS_ranking.predict`, parameterized by the exponential function `e`
(`np.exp` is modelled by an arbitrary strictly monotone positive
function, which is all the claims about ordering and thresholding use). -/
def sigmoidE (e : ℚ → ℚ) (x : ℚ) : ℚ := 1 / (1 + e (-x))

/-- `ALS_ranking.predict(u, i)`: `pred = 1.0 if prob >= 0.5 else 0.0`,
where `prob` is the logistic transform of the dot product; an
`IndexError` is caught and the global-mean default returned. -/
def predictRankingE {n m k : ℕ} (e : ℚ → ℚ) (P : Fin n → Vec k)
    (Q : Fin m → Vec k) (gm : ℚ) (u i : ℤ) : ℚ :=
  if h : inPyRange n u ∧ inPyRange m i then
    if 1 / 2 ≤ sigmoidE e ((P (wrapFin n u h.1)) ⬝ᵥ (Q (wrapFin m i h.2))) then 1 else 0
  else gm

/-- The scored candidate list of `ALS_ranking.recommend_user`: identical
to the rating variant — scores are the *clipped dot products*, not the
logistic probabilities — except that the (dead) guard branch calls the
thresholding `predict`. -/
def rankListR {n m k : ℕ} (e : ℚ → ℚ) (ds : DS n m) (P : Fin n → Vec k)
    (Q : Fin m → Vec k) (gm : ℚ) (u : Fin n) : List (Fin m × ℚ) :=
  if (unlabeledItems ds u).any (fun j => decide ((m : ℕ) < (j : ℕ))) then
    (unlabeledItems ds u).map (fun j => (j, predictRankingE e P Q gm (u : ℤ) ((j : ℕ) : ℤ)))
  else
    (unlabeledItems ds u).map (fun j => (j, clip ((P u) ⬝ᵥ (Q j)) 1 5))

/-- `ALS_ranking.recommend_user(u, n_rec)` in deterministic mode. -/
def recommendUserR {n m k : ℕ} (e : ℚ → ℚ) (ds : DS n m) (P : Fin n → Vec k)
    (Q : Fin m → Vec k) (gm : ℚ) (u : Fin n) (nrec : ℕ) : List (Fin m × ℚ) :=
  (sortDesc (rankListR e ds P Q gm u)).take nrec

/-- The ranking variant's `rank` also always takes the vectorized
clipped-dot-product path. -/
theorem rankListR_eq {n m k : ℕ} (e : ℚ → ℚ) (ds : DS n m) (P : Fin n → Vec k)
    (Q : Fin m → Vec k) (gm : ℚ) (u : Fin n) :
    rankListR e ds P Q gm u
      = (unlabeledItems ds u).map (fun j => (j, clip ((P u) ⬝ᵥ (Q j)) 1 5)) := by
  rw [rankListR, if_neg]
  rw [rankList_guard_false ds u]
  simp

/-- The logistic transform of a strictly monotone positive exponential is
strictly monotone: comparing sigmoids is comparing dot products. -/
theorem sigmoidE_lt_iff (e : ℚ → ℚ) (he : StrictMono e) (hpos : ∀ x, 0 < e x)
    (x y : ℚ) : sigmoidE e x < sigmoidE e y ↔ x < y := by
  have hx : (0 : ℚ) < 1 + e (-x) := by
    have := hpos (-x)
    linarith
  have hy : (0 : ℚ) < 1 + e (-y) := by
    have := hpos (-y)
    linarith
  rw [sigmoidE, sigmoidE, div_lt_div_iff₀ hx hy, one_mul, one_mul]
  constructor
  · intro h
    have : e (-y) < e (-x) := by linarith
    have := he.lt_iff_lt.1 this
    linarith
  · intro h
    have : (-y : ℚ) < -x := by linarith
    have := he this
    linarith

/-- Clipping is monotone non-decreasing. -/
theorem clip_le_clip {x y : ℚ} (lo hi : ℚ) (h : x ≤ y) :
    clip x lo hi ≤ clip y lo hi :=
  max_le_max le_rfl (min_le_min h le_rfl)

/-- Every entry of the ranking candidate list scores its item by the
clipped dot product. -/
theorem recommendUserR_score {n m k : ℕ} (e : ℚ → ℚ) (ds : DS n m)
    (P : Fin n → Vec k) (Q : Fin m → Vec k) (gm : ℚ) (u : Fin n) (nrec : ℕ)
    (p : Fin m × ℚ) (hp : p ∈ recommendUserR e ds P Q gm u nrec) :
    p.2 = clip ((P u) ⬝ᵥ (Q p.1)) 1 5 := by
  have h1 : p ∈ sortDesc (rankListR e ds P Q gm u) :=
    (List.take_sublist nrec _).subset hp
  have h2 : p ∈ rankListR e ds P Q gm u := (sortDesc_perm _).mem_iff.1 h1
  rw [rankListR_eq] at h2
  obtain ⟨j, _, rfl⟩ := List.mem_map.1 h2
  rfl

/-- A concrete strictly monotone, everywhere-positive rational stand-in
for `np.exp`, used to instantiate the abstract exponential in concrete
evaluations: `1 + x` on nonnegatives, `1 / (1 - x)` on negatives. -/
def eModel (x : ℚ) : ℚ := if 0 ≤ x then 1 + x else 1 / (1 - x)

theorem eModel_pos : ∀ x, 0 < eModel x := by
  intro x
  rw [eModel]
  split
  · linarith [le_of_lt (show (0 : ℚ) < 1 by norm_num)]
  · rename_i h
    exact div_pos one_pos (by linarith [not_le.1 h])

theorem eModel_strictMono : StrictMono eModel := by
  intro x y hxy
  rw [eModel, eModel]
  rcases le_or_lt 0 x with hx | hx <;> rcases le_or_lt 0 y with hy | hy
  · rw [if_pos hx, if_pos hy]
    linarith
  · linarith
  · rw [if_neg (not_le.2 hx), if_pos hy]
    have h1 : (1 : ℚ) < 1 - x := by linarith
    have h2 : 1 / (1 - x) < 1 := (div_lt_one (by linarith)).2 h1
    linarith
  · rw [if_neg (not_le.2 hx), if_neg (not_le.2 hy)]
    rw [div_lt_div_iff₀ (by linarith : (0 : ℚ) < 1 - x) (by linarith : (0 : ℚ) < 1 - y)]
    linarith

/-- C8 (amended): per-pair prediction thresholds the logistic transform of
the dot product at 0.5 into a binary label; the candidate ordering of
`recommend_user` in deterministic mode, however, is by non-increasing
*clipped* dot product `clip(P[u]·Q[i], 1, 5)` — a non-decreasing but not
strictly increasing function of the pre-threshold probability — so an item
with strictly higher pre-threshold probability is ranked no lower *except*
when clipping collapses both scores to the same value, which the
counterexample shows can invert the sigmoid order. -/
theorem C8_amended_clip_ordering {n m k : ℕ} (e : ℚ → ℚ) (he : StrictMono e)
    (hpos : ∀ x, 0 < e x) (ds : DS n m) (P : Fin n → Vec k) (Q : Fin m → Vec k)
    (gm : ℚ) (u : Fin n) (nrec : ℕ) :
    (∀ uz iz : ℤ, ∀ h : inPyRange n uz ∧ inPyRange m iz,
      predictRankingE e P Q gm uz iz
        = if 1 / 2 ≤ sigmoidE e ((P (wrapFin n uz h.1)) ⬝ᵥ (Q (wrapFin m iz h.2)))
          then 1 else 0) ∧
    (recommendUserR e ds P Q gm u nrec).Pairwise (fun a b =>
      b.2 ≤ a.2 ∧
      (sigmoidE e ((P u) ⬝ᵥ (Q a.1)) < sigmoidE e ((P u) ⬝ᵥ (Q b.1)) →
        clip ((P u) ⬝ᵥ (Q a.1)) 1 5 = clip ((P u) ⬝ᵥ (Q b.1)) 1 5)) := by
  constructor
  · intro uz iz h
    rw [predictRankingE, dif_pos h]
  · have hpw : (recommendUserR e ds P Q gm u nrec).Pairwise (fun a b => b.2 ≤ a.2) :=
      List.Pairwise.sublist (List.take_sublist nrec _) (sortDesc_pairwise _)
    refine List.Pairwise.imp_of_mem ?_ hpw
    intro a b ha hb hab
    refine ⟨hab, fun hlt => ?_⟩
    have hda := recommendUserR_score e ds P Q gm u nrec a ha
    have hdb := recommendUserR_score e ds P Q gm u nrec b hb
    have hdotlt : (P u) ⬝ᵥ (Q a.1) < (P u) ⬝ᵥ (Q b.1) :=
      (sigmoidE_lt_iff e he hpos _ _).1 hlt
    have hle : clip ((P u) ⬝ᵥ (Q a.1)) 1 5 ≤ clip ((P u) ⬝ᵥ (Q b.1)) 1 5 :=
      clip_le_clip 1 5 (le_of_lt hdotlt)
    have hge : clip ((P u) ⬝ᵥ (Q b.1)) 1 5 ≤ clip ((P u) ⬝ᵥ (Q a.1)) 1 5 := by
      rw [← hda, ← hdb]
      exact hab
    exact le_antisymm hle hge

/-- A dataset with no interactions (for concrete evaluations). -/
def dsEmpty (n m : ℕ) (gm : ℚ) : DS n m :=
  ⟨fun _ => [], fun _ => [], gm, fun _ => by simp, fun _ => by simp⟩

/-- Concrete one-user factor matrix: the single latent row is `[1]`. -/
def P8 : Fin 1 → Vec 1 := fun _ _ => 1

/-- Concrete two-item factor matrix: item 0 has latent row `[6]`, item 1
has latent row `[7]` (both dot products clip to 5). -/
def Q8 : Fin 2 → Vec 1 := fun i _ => if i = 0 then 6 else 7

/-- C8 counterexample: on a trained model where items 0 and 1 have dot
products 6 and 7 with the user — both clipping to score 5 — item 1 has the
strictly higher pre-threshold probability yet is ranked strictly lower
(position 2) than item 0 by `ALS_ranking.recommend_user`, because the sort
key is the clipped dot product and the stable sort keeps the tied items in
ascending-index order. -/
theorem C8_counterexample_clip_tie :
    sigmoidE eModel ((P8 0) ⬝ᵥ (Q8 1)) > sigmoidE eModel ((P8 0) ⬝ᵥ (Q8 0)) ∧
    recommendUserR eModel (dsEmpty 1 2 0) P8 Q8 0 0 2 = [(0, 5), (1, 5)] := by
  have hdot0 : (P8 0) ⬝ᵥ (Q8 0) = (6 : ℚ) := by
    simp [Matrix.dotProduct, P8, Q8, Fin.sum_univ_one]
  have hdot1 : (P8 0) ⬝ᵥ (Q8 1) = (7 : ℚ) := by
    simp [Matrix.dotProduct, P8, Q8, Fin.sum_univ_one]
  have hc6 : clip (6 : ℚ) 1 5 = 5 := by
    rw [clip]
    norm_num
  have hc7 : clip (7 : ℚ) 1 5 = 5 := by
    rw [clip]
    norm_num
  constructor
  · rw [hdot0, hdot1]
    norm_num [sigmoidE, eModel]
  · rw [recommendUserR, rankListR_eq]
    have hunl : unlabeledItems (dsEmpty 1 2 0) 0 = [0, 1] := by decide
    rw [hunl]
    simp only [List.map_cons, List.map_nil, hdot0, hdot1, hc6, hc7]
    norm_num [sortDesc, insertDesc]

/-! ## Task-kind handling (`ALS_rating.__init__` and the epoch diagnostics) -/

/-- The stored configuration of `ALS_rating.__init__(n_factors, n_epochs,
reg, task, seed)`: the constructor merely stores its arguments — there is
no validation of the task string. -/
structure ALSConfig where
  n_factors : ℕ
  n_epochs : ℕ
  reg : ℚ
  task : String
  seed : ℕ

/-- `ALS_rating.__init__`: store the five arguments, nothing else. -/
def mkALSRating (nf ne : ℕ) (reg : ℚ) (task : String) (seed : ℕ) : ALSConfig :=
  ⟨nf, ne, reg, task, seed⟩

/-- The kind of periodic diagnostic a `fit` epoch prints. -/
inductive Diag : Type
  | rmseReport : Diag
  | mapReport : Diag
deriving DecidableEq

/-- The diagnostic branch at the end of each `ALS_rating.fit` epoch:
`if verbose > 0 and epoch % 5 == 0 and self.task == "rating"` print the
rmse report, `elif verbose > 0 and epoch % 5 == 0 and self.task ==
"ranking"` print the MAP report, else print nothing. -/
def epochDiag (task : String) (verbose : ℕ) (epoch : ℕ) : List Diag :=
  if 0 < verbose ∧ epoch % 5 = 0 ∧ task = "rating" then [Diag.rmseReport]
  else if 0 < verbose ∧ epoch % 5 = 0 ∧ task = "ranking" then [Diag.mapReport]
  else []

/-- `ALS_rating.fit` together with its diagnostic log: epoch `e + 1` runs
the two sweeps — which never consult `task` — and then appends whatever
diagnostics the `task`/`verbose` branch selects. -/
def ratingRun {n m k : ℕ} (ds : DS n m) (reg : ℚ) (task : String) (verbose : ℕ)
    (PQ0 : (Fin n → Vec k) × (Fin m → Vec k)) :
    ℕ → ((Fin n → Vec k) × (Fin m → Vec k)) × List Diag
  | 0 => (PQ0, [])
  | e + 1 =>
      (ratingEpoch ds reg (ratingRun ds reg task verbose PQ0 e).1,
       (ratingRun ds reg task verbose PQ0 e).2 ++ epochDiag task verbose (e + 1))

/-- Concrete 1-user/1-item dataset with one interaction of label 5. -/
def ds9 : DS 1 1 :=
  ⟨fun _ => [(0, 5)], fun _ => [(0, 5)], 3, fun _ => by simp, fun _ => by simp⟩

/-- Concrete all-ones initial factor pair for `ds9`. -/
def PQ9 : (Fin 1 → Vec 1) × (Fin 1 → Vec 1) := (fun _ _ => 1, fun _ _ => 1)

/-- C9 counterexample: fitting with the unrecognized task string
`"banana"` does *not* fail before training — no validation exists — and
one full epoch runs: the factors move away from their initialization
(`P[0]` becomes 5/2), identically to a `task="rating"` run; only the
diagnostic log is empty. -/
theorem C9_counterexample_no_task_validation :
    ("banana" ≠ "rating" ∧ "banana" ≠ "ranking") ∧
    (ratingRun ds9 1 "banana" 1 PQ9 1).1 ≠ PQ9 ∧
    (ratingRun ds9 1 "banana" 1 PQ9 1).1 = (ratingRun ds9 1 "rating" 1 PQ9 1).1 := by
  refine ⟨⟨by decide, by decide⟩, ?_, rfl⟩
  intro h
  have h1 : (ratingRun ds9 1 "banana" 1 PQ9 1).1.1 0 0 = 1 := by
    rw [h]
    rfl
  have h2 : (ratingRun ds9 1 "banana" 1 PQ9 1).1.1 0 0 = 5 / 2 := by
    show (userSweep ds9 1 PQ9.2 PQ9.1) 0 0 = 5 / 2
    rw [userSweep]
    rw [if_neg (by simp [ds9])]
    rw [ridgeUpdate, linSolve]
    have hA : ridgeMatrix 1 (PQ9.2) (ds9.trainUser 0) = Matrix.of fun (_ _ : Fin 1) => (2 : ℚ) := by
      funext a b
      rw [ridgeMatrix, gramList]
      simp [ds9, PQ9, outer, Matrix.vecMulVec, Fin.fin_one_eq_zero a, Fin.fin_one_eq_zero b]
      norm_num
    have hb : rhsList (PQ9.2) (ds9.trainUser 0) = fun _ => (5 : ℚ) := by
      funext a
      rw [rhsList]
      simp [ds9, PQ9]
    rw [hA, hb]
    have hdet : (Matrix.of fun (_ _ : Fin 1) => (2 : ℚ)).det = 2 := by
      rw [Matrix.det_fin_one]
      rfl
    have hadj : (Matrix.of fun (_ _ : Fin 1) => (2 : ℚ)).adjugate = 1 :=
      Matrix.adjugate_fin_one _
    rw [hdet, hadj]
    simp [Matrix.one_mulVec]
    norm_num
  rw [h1] at h2
  norm_num at h2

/-- C9 (amended): no task validation occurs anywhere: `__init__` stores
any task string unchanged, and `fit` runs all its epochs regardless of the
task kind, producing exactly the factors a `task="rating"` run produces;
an unrecognized task only suppresses the periodic diagnostics. -/
theorem C9_amended_no_validation {n m k : ℕ} (ds : DS n m) (reg : ℚ)
    (task : String) (verbose : ℕ) (PQ0 : (Fin n → Vec k) × (Fin m → Vec k))
    (epochs : ℕ) (htask : task ≠ "rating" ∧ task ≠ "ranking") :
    (mkALSRating 100 20 5 task 42).task = task ∧
    (ratingRun ds reg task verbose PQ0 epochs).1
      = (ratingRun ds reg "rating" verbose PQ0 epochs).1 ∧
    (ratingRun ds reg task verbose PQ0 epochs).2 = [] := by
  refine ⟨rfl, ?_, ?_⟩
  · induction epochs with
    | zero => rfl
    | succ e ih =>
        show (ratingEpoch ds reg (ratingRun ds reg task verbose PQ0 e).1, _).1
          = (ratingEpoch ds reg (ratingRun ds reg "rating" verbose PQ0 e).1, _).1
        rw [ih]
  · induction epochs with
    | zero => rfl
    | succ e ih =>
        show (ratingRun ds reg task verbose PQ0 e).2
            ++ epochDiag task verbose (e + 1) = []
        rw [ih, List.nil_append, epochDiag, if_neg, if_neg]
        · rintro ⟨_, _, htk⟩
          exact htask.2 htk
        · rintro ⟨_, _, htk⟩
          exact htask.1 htk

/-! ## Concrete witnesses -/

/-- The labels of `ds9` are nonnegative (user view). -/
theorem ds9_user_labels_nonneg : ∀ u : Fin 1, ∀ p ∈ ds9.trainUser u, 0 ≤ p.2 := by
  intro u p hp
  rw [show ds9.trainUser u = [(0, 5)] from rfl, List.mem_singleton] at hp
  subst hp
  norm_num

/-- The labels of `ds9` are nonnegative (item view). -/
theorem ds9_item_labels_nonneg : ∀ i : Fin 1, ∀ p ∈ ds9.trainItem i, 0 ≤ p.2 := by
  intro i p hp
  rw [show ds9.trainItem i = [(0, 5)] from rfl, List.mem_singleton] at hp
  subst hp
  norm_num

/-- Witness for C1 on the concrete dataset `ds9` with `reg = 1`. -/
theorem C1_rating_epoch_alternating_witness :
    (0 : ℚ) < 1 ∧
    (ratingFit ds9 1 (0 + 1) PQ9 =
      (userSweep ds9 1 (ratingFit ds9 1 0 PQ9).2 (ratingFit ds9 1 0 PQ9).1,
       itemSweep ds9 1 (ratingFit ds9 1 (0 + 1) PQ9).1 (ratingFit ds9 1 0 PQ9).2) ∧
    (∀ u, ds9.trainUser u ≠ [] →
      (ridgeMatrix 1 (ratingFit ds9 1 0 PQ9).2 (ds9.trainUser u)).mulVec
          ((ratingFit ds9 1 (0 + 1) PQ9).1 u)
        = rhsList (ratingFit ds9 1 0 PQ9).2 (ds9.trainUser u)) ∧
    (∀ i, ds9.trainItem i ≠ [] →
      (ridgeMatrix 1 (ratingFit ds9 1 (0 + 1) PQ9).1 (ds9.trainItem i)).mulVec
          ((ratingFit ds9 1 (0 + 1) PQ9).2 i)
        = rhsList (ratingFit ds9 1 (0 + 1) PQ9).1 (ds9.trainItem i))) :=
  ⟨one_pos, C1_rating_epoch_alternating ds9 1 one_pos 0 PQ9⟩

/-- Witness for C2 on the concrete dataset `ds9` with `reg = 1`. -/
theorem C2_implicit_epoch_systems_witness :
    (0 : ℚ) < 1 ∧
    (∀ u : Fin 1, ∀ p ∈ ds9.trainUser u, 0 ≤ p.2) ∧
    (∀ i : Fin 1, ∀ p ∈ ds9.trainItem i, 0 ≤ p.2) ∧
    (implicitFit ds9 1 (0 + 1) PQ9 =
      (implicitUserSweep ds9 1 (fullGram (implicitFit ds9 1 0 PQ9).2)
        (implicitFit ds9 1 0 PQ9).2 (implicitFit ds9 1 0 PQ9).1,
       implicitItemSweep ds9 1 (fullGram (implicitFit ds9 1 (0 + 1) PQ9).1)
        (implicitFit ds9 1 (0 + 1) PQ9).1 (implicitFit ds9 1 0 PQ9).2) ∧
    (∀ u, ds9.trainUser u ≠ [] →
      wridgeMatrix 1 (fullGram (implicitFit ds9 1 0 PQ9).2)
          (implicitFit ds9 1 0 PQ9).2 (ds9.trainUser u)
        = fullGram (implicitFit ds9 1 0 PQ9).2
          + ((ds9.trainUser u).map
              (fun p => (10 * p.2) • outer ((implicitFit ds9 1 0 PQ9).2 p.1))).sum
          + (1 : ℚ) • (1 : Mat 1) ∧
      confRhs (implicitFit ds9 1 0 PQ9).2 (ds9.trainUser u)
        = ((ds9.trainUser u).map
            (fun p => (10 * p.2) • (implicitFit ds9 1 0 PQ9).2 p.1)).sum ∧
      (wridgeMatrix 1 (fullGram (implicitFit ds9 1 0 PQ9).2)
          (implicitFit ds9 1 0 PQ9).2 (ds9.trainUser u)).mulVec
          ((implicitFit ds9 1 (0 + 1) PQ9).1 u)
        = confRhs (implicitFit ds9 1 0 PQ9).2 (ds9.trainUser u)) ∧
    (∀ i, ds9.trainItem i ≠ [] →
      wridgeMatrix 1 (fullGram (implicitFit ds9 1 (0 + 1) PQ9).1)
          (implicitFit ds9 1 (0 + 1) PQ9).1 (ds9.trainItem i)
        = fullGram (implicitFit ds9 1 (0 + 1) PQ9).1
          + ((ds9.trainItem i).map
              (fun p => (10 * p.2) • outer ((implicitFit ds9 1 (0 + 1) PQ9).1 p.1))).sum
          + (1 : ℚ) • (1 : Mat 1) ∧
      confRhs (implicitFit ds9 1 (0 + 1) PQ9).1 (ds9.trainItem i)
        = ((ds9.trainItem i).map
            (fun p => (10 * p.2) • (implicitFit ds9 1 (0 + 1) PQ9).1 p.1)).sum ∧
      (wridgeMatrix 1 (fullGram (implicitFit ds9 1 (0 + 1) PQ9).1)
          (implicitFit ds9 1 (0 + 1) PQ9).1 (ds9.trainItem i)).mulVec
          ((implicitFit ds9 1 (0 + 1) PQ9).2 i)
        = confRhs (implicitFit ds9 1 (0 + 1) PQ9).1 (ds9.trainItem i))) :=
  ⟨one_pos, ds9_user_labels_nonneg, ds9_item_labels_nonneg,
    C2_implicit_epoch_systems ds9 1 one_pos ds9_user_labels_nonneg
      ds9_item_labels_nonneg 0 PQ9⟩

/-- Witness for C3 with `reg = 1`, one item with latent row `[1]`, and one
neighbor of label 5. -/
theorem C3_normal_equation_posdef_witness :
    (0 : ℚ) < 1 ∧
    ([((0 : Fin 1), (5 : ℚ))] ≠ []) ∧
    (((ridgeMatrix 1 PQ9.2 [((0 : Fin 1), (5 : ℚ))])ᵀ
        = ridgeMatrix 1 PQ9.2 [((0 : Fin 1), (5 : ℚ))] ∧
      (∀ x : Vec 1, x ≠ 0 →
        0 < x ⬝ᵥ (ridgeMatrix 1 PQ9.2 [((0 : Fin 1), (5 : ℚ))]).mulVec x) ∧
      (ridgeMatrix 1 PQ9.2 [((0 : Fin 1), (5 : ℚ))]).det ≠ 0 ∧
      (ridgeMatrix 1 PQ9.2 [((0 : Fin 1), (5 : ℚ))]).mulVec
          (ridgeUpdate 1 PQ9.2 [((0 : Fin 1), (5 : ℚ))])
        = rhsList PQ9.2 [((0 : Fin 1), (5 : ℚ))]) ∧
    ((∀ p ∈ [((0 : Fin 1), (5 : ℚ))], 0 ≤ p.2) →
      (wridgeMatrix 1 (fullGram PQ9.2) PQ9.2 [((0 : Fin 1), (5 : ℚ))])ᵀ
        = wridgeMatrix 1 (fullGram PQ9.2) PQ9.2 [((0 : Fin 1), (5 : ℚ))] ∧
      (∀ x : Vec 1, x ≠ 0 →
        0 < x ⬝ᵥ (wridgeMatrix 1 (fullGram PQ9.2) PQ9.2
          [((0 : Fin 1), (5 : ℚ))]).mulVec x) ∧
      (wridgeMatrix 1 (fullGram PQ9.2) PQ9.2 [((0 : Fin 1), (5 : ℚ))]).det ≠ 0 ∧
      (wridgeMatrix 1 (fullGram PQ9.2) PQ9.2 [((0 : Fin 1), (5 : ℚ))]).mulVec
          (linSolve (wridgeMatrix 1 (fullGram PQ9.2) PQ9.2 [((0 : Fin 1), (5 : ℚ))])
            (confRhs PQ9.2 [((0 : Fin 1), (5 : ℚ))]))
        = confRhs PQ9.2 [((0 : Fin 1), (5 : ℚ))])) :=
  ⟨one_pos, List.cons_ne_nil _ _,
    C3_normal_equation_posdef 1 one_pos PQ9.2 [((0 : Fin 1), (5 : ℚ))]
      (List.cons_ne_nil _ _)⟩

/-- Witness for C4: user index 5 is beyond the single trained user row, so
the prediction is the global-mean default 3. -/
theorem C4_predict_out_of_range_default_witness :
    ((1 : ℤ) ≤ 5 ∨ (1 : ℤ) ≤ 0) ∧
    predictRating PQ9.1 PQ9.2 3 5 0 = 3 :=
  ⟨Or.inl (by decide),
    C4_predict_out_of_range_default PQ9.1 PQ9.2 3 5 0 (Or.inl (by decide))⟩

/-- Witness for C5 with global mean 3. -/
theorem C5_predict_in_clip_range_witness :
    (1 : ℚ) ≤ 3 ∧ (3 : ℚ) ≤ 5 ∧
    (1 ≤ predictRating PQ9.1 PQ9.2 3 0 0 ∧ predictRating PQ9.1 PQ9.2 3 0 0 ≤ 5) :=
  ⟨by norm_num, by norm_num,
    C5_predict_in_clip_range PQ9.1 PQ9.2 3 (by norm_num) (by norm_num) 0 0⟩

/-- Witness for C6 on `ds9` (user 0 has one training interaction). -/
theorem C6_recommend_deterministic_witness :
    (ds9.trainUser 0 ≠ []) ∧
    ((recommendUser ds9 PQ9.1 PQ9.2 3 0 2).length ≤ 2 ∧
     (∀ p ∈ recommendUser ds9 PQ9.1 PQ9.2 3 0 2,
        p.1 ∉ (ds9.trainUser 0).map Prod.fst) ∧
     (recommendUser ds9 PQ9.1 PQ9.2 3 0 2).Pairwise (fun a b => b.2 ≤ a.2)) :=
  ⟨List.cons_ne_nil _ _,
    C6_recommend_deterministic ds9 PQ9.1 PQ9.2 3 0 (List.cons_ne_nil _ _) 2⟩

/-- Witness for C10: both indices are `-1`, in Python range for the 1-row
matrices; the prediction wraps to row 0 on both sides. -/
theorem C10_predict_negative_wraparound_witness :
    inPyRange 1 (-1) ∧
    (predictRating PQ9.1 PQ9.2 3 (-1) (-1)
        = clip ((PQ9.1 (wrapFin 1 (-1) (by decide))) ⬝ᵥ
            (PQ9.2 (wrapFin 1 (-1) (by decide)))) 1 5 ∧
    ((-1 : ℤ) < 0 → ((wrapFin 1 (-1) (by decide) : Fin 1) : ℕ) = ((1 : ℤ) + -1).toNat) ∧
    ((-1 : ℤ) < 0 → ((wrapFin 1 (-1) (by decide) : Fin 1) : ℕ) = ((1 : ℤ) + -1).toNat) ∧
    ((0 : ℤ) ≤ -1 → ((wrapFin 1 (-1) (by decide) : Fin 1) : ℕ) = (-1 : ℤ).toNat) ∧
    ((0 : ℤ) ≤ -1 → ((wrapFin 1 (-1) (by decide) : Fin 1) : ℕ) = (-1 : ℤ).toNat)) :=
  ⟨by decide,
    C10_predict_negative_wraparound PQ9.1 PQ9.2 3 (-1) (-1) (by decide) (by decide)⟩

/-- Witness for C9 (amended) with the unrecognized task `"banana"`. -/
theorem C9_amended_no_validation_witness :
    ("banana" ≠ "rating" ∧ "banana" ≠ "ranking") ∧
    ((mkALSRating 100 20 5 "banana" 42).task = "banana" ∧
     (ratingRun ds9 1 "banana" 1 PQ9 1).1 = (ratingRun ds9 1 "rating" 1 PQ9 1).1 ∧
     (ratingRun ds9 1 "banana" 1 PQ9 1).2 = []) :=
  ⟨⟨by decide, by decide⟩,
    C9_amended_no_validation ds9 1 "banana" 1 PQ9 1 ⟨by decide, by decide⟩⟩

/-- Witness for C8 (amended): the abstract exponential instantiated with
the concrete `eModel` on the clip-tie model. -/
theorem C8_amended_clip_ordering_witness :
    StrictMono eModel ∧ (∀ x, 0 < eModel x) ∧
    ((∀ uz iz : ℤ, ∀ h : inPyRange 1 uz ∧ inPyRange 2 iz,
      predictRankingE eModel P8 Q8 0 uz iz
        = if 1 / 2 ≤ sigmoidE eModel ((P8 (wrapFin 1 uz h.1)) ⬝ᵥ (Q8 (wrapFin 2 iz h.2)))
          then 1 else 0) ∧
    (recommendUserR eModel (dsEmpty 1 2 0) P8 Q8 0 0 2).Pairwise (fun a b =>
      b.2 ≤ a.2 ∧
      (sigmoidE eModel ((P8 0) ⬝ᵥ (Q8 a.1)) < sigmoidE eModel ((P8 0) ⬝ᵥ (Q8 b.1)) →
        clip ((P8 0) ⬝ᵥ (Q8 a.1)) 1 5 = clip ((P8 0) ⬝ᵥ (Q8 b.1)) 1 5))) :=
  ⟨eModel_strictMono, eModel_pos,
    C8_amended_clip_ordering eModel eModel_strictMono eModel_pos
      (dsEmpty 1 2 0) P8 Q8 0 0 2⟩

/-- Concrete one-user factor matrix for the sampling scenario. -/
def P7 : Fin 1 → Vec 1 := fun _ _ => 1

/-- Concrete three-item factor matrix: items score 5, 4 and 1 with the
user, so exactly two items clear the threshold 4. -/
def Q7 : Fin 3 → Vec 1 := fun i _ => if i = 0 then 5 else if i = 1 then 4 else 1

/-- Evaluation: on the sampling scenario the threshold filter keeps
exactly items 0 (score 5) and 1 (score 4). -/
theorem randomCandidates7_eq :
    randomCandidates (dsEmpty 1 3 0) P7 Q7 0 0 = [(0, 5), (1, 4)] := by
  rw [randomCandidates, rankList_eq]
  have hunl : unlabeledItems (dsEmpty 1 3 0) 0 = [0, 1, 2] := by decide
  rw [hunl]
  have hd0 : (P7 0) ⬝ᵥ (Q7 0) = (5 : ℚ) := by
    simp [Matrix.dotProduct, P7, Q7, Fin.sum_univ_one]
  have hd1 : (P7 0) ⬝ᵥ (Q7 1) = (4 : ℚ) := by
    simp [Matrix.dotProduct, P7, Q7, Fin.sum_univ_one]
  have hd2 : (P7 0) ⬝ᵥ (Q7 2) = (1 : ℚ) := by
    simp [Matrix.dotProduct, P7, Q7, Fin.sum_univ_one]
  have hc5 : clip (5 : ℚ) 1 5 = 5 := by
    rw [clip]
    norm_num
  have hc4 : clip (4 : ℚ) 1 5 = 4 := by
    rw [clip]
    norm_num
  have hc1 : clip (1 : ℚ) 1 5 = 1 := by
    rw [clip]
    norm_num
  simp only [List.map_cons, List.map_nil, hd0, hd1, hd2, hc5, hc4, hc1]
  decide

/-- Witness for C7: a user with exactly two candidates at/above the
threshold; every 2-sample is exactly those two items, and no 3-sample
exists. -/
theorem C7_weighted_random_sampling_witness :
    (randomCandidates (dsEmpty 1 3 0) P7 Q7 0 0 = [(0, 5), (1, 4)]) ∧
    ((0 : Fin 3) ≠ 1) ∧
    ((randomProbs (dsEmpty 1 3 0) P7 Q7 0 0).sum = 1 ∧
     (∀ out, sampleOk ((randomCandidates (dsEmpty 1 3 0) P7 Q7 0 0).map Prod.fst) 2 out →
        (0 : Fin 3) ∈ out ∧ (1 : Fin 3) ∈ out ∧ out.length = 2) ∧
     (∀ out, ¬ sampleOk ((randomCandidates (dsEmpty 1 3 0) P7 Q7 0 0).map Prod.fst) 3 out)) :=
  ⟨randomCandidates7_eq, by decide,
    C7_weighted_random_sampling (dsEmpty 1 3 0) P7 Q7 0 0 0 1 5 4
      randomCandidates7_eq (by decide)⟩

end ALSSpec
